import Mathlib

/-!
Verification of the dataset state & operation engine of the image-toolkit
repository (`src-tauri/src-python/image_toolkit`).

The Python source is shallowly embedded:
* Python strings are `List Char` (named `Str` below); Python `list` is `List`.
* The two schema revisions present in the source are both embedded:
  the tag-list revision (`types.py` + `tools.py` + `utils.py`) and the
  free-text revision (`__init__.py` + `batch_operations.py` +
  `tools/__init__.py` + `utils/__init__.py`).
* The filesystem is a deterministic association list from paths to text
  contents; image files are tracked with their pixel dimensions, pixel data
  itself being an external codec capability per the design (spec section 6).
* Names ending in the word "prefix" are spelled with the tail "pre"
  (`caption_pre` for `caption_prefix`, `get_common_pre` for
  `get_common_prefix`, ...); everything else keeps the source's names.
-/

/-- A Python string, as a list of characters. -/
abbrev Str := List Char

namespace ImageToolkit

/-! ## Prefix algebra (`utils.py`, tag-list revision; generic in `T`)

```python
def pairwise_common_prefix[T](a, b):
    result = []
    for i in range(min(len(a), len(b))):
        if a[i] == b[i]: result.append(a[i])
        else: break
    return result
```
The loop walks both sequences in lockstep and stops at the first mismatch. -/
def pairwise_common_pre {T : Type} [DecidableEq T] : List T → List T → List T
  | [], _ => []
  | _ :: _, [] => []
  | a :: xs, b :: ys => if a = b then a :: pairwise_common_pre xs ys else []

/-- Python `utils.get_common_prefix`: a first-iteration flag seeds the
running result with the first sequence, then reduces with
`pairwise_common_prefix`; the empty input yields `[]`. -/
def get_common_pre {T : Type} [DecidableEq T] : List (List T) → List T
  | [] => []
  | x :: xs => xs.foldl pairwise_common_pre x

theorem pairwise_common_pre_prefix_left {T : Type} [DecidableEq T] :
    ∀ a b : List T, pairwise_common_pre a b <+: a
  | [], _ => by simp [pairwise_common_pre]
  | _ :: _, [] => by simp [pairwise_common_pre]
  | a :: xs, b :: ys => by
    by_cases h : a = b
    · simpa [pairwise_common_pre, h] using pairwise_common_pre_prefix_left xs ys
    · simp [pairwise_common_pre, h]

theorem pairwise_common_pre_prefix_right {T : Type} [DecidableEq T] :
    ∀ a b : List T, pairwise_common_pre a b <+: b
  | [], _ => by simp [pairwise_common_pre]
  | _ :: _, [] => by simp [pairwise_common_pre]
  | a :: xs, b :: ys => by
    by_cases h : a = b
    · simpa [pairwise_common_pre, h] using pairwise_common_pre_prefix_right xs ys
    · simp [pairwise_common_pre, h]

theorem prefix_pairwise_common_pre {T : Type} [DecidableEq T] :
    ∀ (p a b : List T), p <+: a → p <+: b → p <+: pairwise_common_pre a b
  | [], _, _, _, _ => by simp
  | c :: p, _, _, ha, hb => by
    obtain ⟨ta, rfl⟩ := ha
    obtain ⟨tb, rfl⟩ := hb
    obtain ⟨t, ht⟩ := prefix_pairwise_common_pre p (p ++ ta) (p ++ tb) ⟨ta, rfl⟩ ⟨tb, rfl⟩
    exact ⟨t, by simp [pairwise_common_pre, ht]⟩

theorem get_common_pre_fold_pre {T : Type} [DecidableEq T] :
    ∀ (xs : List (List T)) (x : List T),
      (xs.foldl pairwise_common_pre x <+: x) ∧
        ∀ l ∈ xs, xs.foldl pairwise_common_pre x <+: l
  | [], x => by simp
  | y :: ys, x => by
    obtain ⟨h1, h2⟩ := get_common_pre_fold_pre ys (pairwise_common_pre x y)
    refine ⟨h1.trans (pairwise_common_pre_prefix_left x y), ?_⟩
    intro l hl
    rcases List.mem_cons.1 hl with rfl | hl
    · exact h1.trans (pairwise_common_pre_prefix_right x l)
    · exact h2 l hl

theorem prefix_get_common_pre_fold {T : Type} [DecidableEq T] :
    ∀ (xs : List (List T)) (x p : List T), p <+: x → (∀ l ∈ xs, p <+: l) →
      p <+: xs.foldl pairwise_common_pre x
  | [], _, _, hx, _ => hx
  | y :: ys, x, p, hx, hl => by
    exact prefix_get_common_pre_fold ys (pairwise_common_pre x y) p
      (prefix_pairwise_common_pre p x y hx (hl y (by simp)))
      (fun l h => hl l (by simp [h]))

/-- C6 -- `get_common_prefix` returns the longest common prefix of its
inputs, elementwise: it yields `[]` on the empty collection, the input
itself on a singleton, a prefix of every input, and every common prefix of
a nonempty collection is a prefix of the result. -/
theorem get_common_pre_longest_common {T : Type} [DecidableEq T]
    (S : List (List T)) :
    (S = [] → get_common_pre S = []) ∧
    (∀ x, S = [x] → get_common_pre S = x) ∧
    (∀ l ∈ S, get_common_pre S <+: l) ∧
    (∀ p, (∀ l ∈ S, p <+: l) → S ≠ [] → p <+: get_common_pre S) := by
  refine ⟨fun h => by simp [h, get_common_pre], fun x h => by simp [h, get_common_pre], ?_, ?_⟩
  · intro l hl
    cases S with
    | nil => simp at hl
    | cons x xs =>
      rcases List.mem_cons.1 hl with rfl | hl
      · exact (get_common_pre_fold_pre xs l).1
      · exact (get_common_pre_fold_pre xs x).2 l hl
  · intro p hp hne
    cases S with
    | nil => exact absurd rfl hne
    | cons x xs =>
      exact prefix_get_common_pre_fold xs x p (hp x (by simp))
        (fun l h => hp l (by simp [h]))

/-- Witness for C6: concrete evaluation of `get_common_prefix` on
`[[1,2,3],[1,2,5]]`, discharging the hypotheses of the theorem. -/
theorem get_common_pre_longest_common_witness :
    get_common_pre [[1, 2, 3], [1, 2, 5]] <+: ([1, 2, 3] : List ℕ) ∧
      ([1, 2] : List ℕ) <+: get_common_pre [[1, 2, 3], [1, 2, 5]] := by
  constructor
  · exact (get_common_pre_longest_common [[1, 2, 3], [1, 2, 5]]).2.2.1 [1, 2, 3]
      (by simp)
  · refine (get_common_pre_longest_common [[1, 2, 3], [1, 2, 5]]).2.2.2 [1, 2] ?_ (by simp)
    intro l hl
    rcases List.mem_cons.1 hl with rfl | hl
    · exact ⟨[3], rfl⟩
    · rcases List.mem_cons.1 hl with rfl | h
      · exact ⟨[5], rfl⟩
      · simp at h

theorem list_prefix_antisymm {T : Type} {a b : List T}
    (h1 : a <+: b) (h2 : b <+: a) : a = b :=
  h1.eq_of_length (le_antisymm h1.length_le h2.length_le)

/-- C7 -- `get_common_prefix` is permutation-invariant: permuting the input
list does not change the resulting common prefix. -/
theorem get_common_pre_perm {T : Type} [DecidableEq T]
    (S S' : List (List T)) (h : S.Perm S') :
    get_common_pre S' = get_common_pre S := by
  cases S with
  | nil => rw [h.symm.eq_nil]
  | cons x xs =>
    cases hS' : S' with
    | nil => exact absurd (hS' ▸ h).eq_nil (by simp)
    | cons y ys =>
      have h' : (x :: xs).Perm (y :: ys) := hS' ▸ h
      have hpre1 : ∀ l ∈ x :: xs, ys.foldl pairwise_common_pre y <+: l := by
        intro l hl
        rcases List.mem_cons.1 (h'.mem_iff.1 hl) with rfl | hm
        · exact (get_common_pre_fold_pre ys l).1
        · exact (get_common_pre_fold_pre ys y).2 l hm
      have hpre2 : ∀ l ∈ y :: ys, xs.foldl pairwise_common_pre x <+: l := by
        intro l hl
        rcases List.mem_cons.1 (h'.mem_iff.2 hl) with rfl | hm
        · exact (get_common_pre_fold_pre xs l).1
        · exact (get_common_pre_fold_pre xs x).2 l hm
      show ys.foldl pairwise_common_pre y = xs.foldl pairwise_common_pre x
      refine list_prefix_antisymm ?_ ?_
      · exact prefix_get_common_pre_fold xs x _ (hpre1 x (by simp))
          (fun l hl => hpre1 l (by simp [hl]))
      · exact prefix_get_common_pre_fold ys y _ (hpre2 y (by simp))
          (fun l hl => hpre2 l (by simp [hl]))

/-- Witness for C7: a concrete permutation (a swap) of a two-element input,
with the permutation hypothesis discharged. -/
theorem get_common_pre_perm_witness :
    get_common_pre [[1, 3], [1, 2]] = get_common_pre ([[1, 2], [1, 3]] : List (List ℕ)) :=
  get_common_pre_perm [[1, 2], [1, 3]] [[1, 3], [1, 2]] (List.Perm.swap [1, 3] [1, 2] [])

/-! ## Filesystem model

Sidecar text files are a deterministic association list from path to
content; `fsWrite` models `open(path, 'w')` + `write` (truncate/replace in
place, create by appending), `fsUnlink` models `Path.unlink()`, `fsRead`
models reading a whole file. Image files are kept in a second list mapping
path to pixel dimensions: pixel data, drawing, resampling and codec
round-trips are the external image-codec capability of the design (spec
section 6), and the engine itself only ever observes image sizes. -/

def fsWrite {α : Type} : List (Str × α) → Str → α → List (Str × α)
  | [], p, c => [(p, c)]
  | (q, d) :: rest, p, c =>
    if q = p then (p, c) :: rest else (q, d) :: fsWrite rest p c

def fsRead {α : Type} : List (Str × α) → Str → Option α
  | [], _ => none
  | (q, d) :: rest, p => if q = p then some d else fsRead rest p

def fsUnlink {α : Type} : List (Str × α) → Str → List (Str × α)
  | [], _ => []
  | (q, d) :: rest, p =>
    if q = p then fsUnlink rest p else (q, d) :: fsUnlink rest p

/-- An image file, by its pixel raster dimensions (PIL sizes are ints). -/
structure Img where
  width : Int
  height : Int
deriving DecidableEq

/-- `img.crop((l, t, r, b))` with a float box: the cropped raster. The
rounding a codec applies to a float box is a capability detail never
observed by any theorem below; the floor of the exact difference stands in
for it. -/
def imgCrop (l t r b : ℚ) : Img := { width := (r - l).floor, height := (b - t).floor }

instance exceptDecEq {ε α : Type} [DecidableEq ε] [DecidableEq α] :
    DecidableEq (Except ε α) := fun a b =>
  match a, b with
  | .error e, .error f =>
    if h : e = f then .isTrue (congrArg Except.error h)
    else .isFalse fun hh => h (Except.error.inj hh)
  | .error _, .ok _ => .isFalse fun hh => Except.noConfusion hh
  | .ok _, .error _ => .isFalse fun hh => Except.noConfusion hh
  | .ok a, .ok b =>
    if h : a = b then .isTrue (congrArg Except.ok h)
    else .isFalse fun hh => h (Except.ok.inj hh)

/-- The disk: sidecar text files and image files. -/
structure Disk where
  texts : List (Str × Str)
  images : List (Str × Img)
deriving DecidableEq

def imgOpen (d : Disk) (p : Str) : Option Img := fsRead d.images p

def imgSave (d : Disk) (p : Str) (i : Img) : Disk :=
  { d with images := fsWrite d.images p i }

def imgUnlink (d : Disk) (p : Str) : Disk :=
  { d with images := fsUnlink d.images p }

def textWrite (d : Disk) (p : Str) (c : Str) : Disk :=
  { d with texts := fsWrite d.texts p c }

def textUnlink (d : Disk) (p : Str) : Disk :=
  { d with texts := fsUnlink d.texts p }

/-! ## Free-text revision data model (`__init__.py`)

```python
class DatasetItem(_BaseModel):
    image: Path
    caption: Path
    caption_str: str

class AppState(_BaseModel):
    folder: Path | None = None
    caption_prefix: str = ''
    items: list[DatasetItem] = []
```
(`caption_pre` stands for the source's `caption_prefix`.) -/

structure ItemF where
  image : Str
  caption : Str
  caption_str : Str
deriving DecidableEq

structure AppStateF where
  folder : Option Str
  caption_pre : Str
  items : List ItemF
deriving DecidableEq

/-! ## Parenthesis escaping (`batch_operations.py`)

`re.sub(r'(?<!\\)\(', r'\(', s)` scans the subject left to right; a target
parenthesis is matched (and a backslash inserted before it) unless the
character immediately before it in the subject is a backslash. `prev`
carries that character; insertions never affect the lookbehind because the
lookbehind reads the subject, not the output. -/
def subEsc (t : Char) : Option Char → Str → Str
  | _, [] => []
  | prev, c :: rest =>
    if c = t ∧ prev ≠ some '\\' then '\\' :: c :: subEsc t (some c) rest
    else c :: subEsc t (some c) rest

/-- `re.sub(r'\\\(', r'(', s)`: replace every leftmost non-overlapping
two-character occurrence of backslash-target by the bare target. -/
def subUnesc (t : Char) : Str → Str
  | [] => []
  | [c] => [c]
  | c1 :: c2 :: rest =>
    if c1 = '\\' ∧ c2 = t then c2 :: subUnesc t rest
    else c1 :: subUnesc t (c2 :: rest)

/-- `EscapeOperation.run`'s text transformation: escape `(` then `)`. -/
def escapeStr (s : Str) : Str := subEsc ')' none (subEsc '(' none s)

/-- `UnescapeOperation.run`'s text transformation: unescape `\(` then `\)`. -/
def unescapeStr (s : Str) : Str := subUnesc ')' (subUnesc '(' s)

/-- No occurrence of a target character is already escaped (no backslash
immediately before a `t`), given the character `prev` standing before the
list. -/
def NoEsc (t : Char) : Option Char → Str → Prop
  | _, [] => True
  | prev, c :: rest => ¬(prev = some '\\' ∧ c = t) ∧ NoEsc t (some c) rest

instance noEscDec (t : Char) : (p : Option Char) → (s : Str) → Decidable (NoEsc t p s)
  | _, [] => .isTrue trivial
  | p, c :: rest =>
    haveI : Decidable (NoEsc t (some c) rest) := noEscDec t (some c) rest
    inferInstanceAs (Decidable (¬(p = some '\\' ∧ c = t) ∧ NoEsc t (some c) rest))

/-- Every occurrence of the target character is escaped. -/
def AllEsc (t : Char) : Option Char → Str → Prop
  | _, [] => True
  | prev, c :: rest => (c = t → prev = some '\\') ∧ AllEsc t (some c) rest

/-- Proof-side normal form: escape every occurrence of every character in
`ts`, unconditionally. -/
def escAllWith (ts : List Char) : Str → Str
  | [] => []
  | c :: rest =>
    if c ∈ ts then '\\' :: c :: escAllWith ts rest else c :: escAllWith ts rest

theorem allEsc_subEsc {t : Char} (ht : t ≠ '\\') :
    ∀ (prev : Option Char) (s : Str), AllEsc t prev (subEsc t prev s)
  | _, [] => trivial
  | prev, c :: rest => by
    by_cases h : c = t ∧ prev ≠ some '\\'
    · have he : subEsc t prev (c :: rest) = '\\' :: c :: subEsc t (some c) rest := by
        simp [subEsc, h]
      rw [he]
      exact ⟨fun hbt => absurd hbt (Ne.symm ht), fun _ => rfl,
        allEsc_subEsc ht (some c) rest⟩
    · have he : subEsc t prev (c :: rest) = c :: subEsc t (some c) rest := by
        simp [subEsc, h]
      have hhead : c = t → prev = some '\\' := fun hc => by
        rcases not_and_or.1 h with h1 | h1
        · exact absurd hc h1
        · exact not_not.1 h1
      rw [he]
      exact ⟨hhead, allEsc_subEsc ht (some c) rest⟩

theorem subEsc_of_allEsc {t : Char} :
    ∀ (prev : Option Char) (s : Str), AllEsc t prev s → subEsc t prev s = s
  | _, [], _ => rfl
  | prev, c :: rest, h => by
    obtain ⟨h1, h2⟩ := h
    have hrec := subEsc_of_allEsc (some c) rest h2
    by_cases hc : c = t
    · subst hc
      have hp := h1 rfl
      simp [subEsc, hp, hrec]
    · simp [subEsc, hc, hrec]

theorem allEsc_subEsc_other {t t' : Char} (ht : t ≠ '\\') (htt : t ≠ t') :
    ∀ (prev : Option Char) (s : Str), AllEsc t prev s →
      AllEsc t prev (subEsc t' prev s)
  | _, [], _ => trivial
  | prev, c :: rest, h => by
    obtain ⟨h1, h2⟩ := h
    have hrec := allEsc_subEsc_other ht htt (some c) rest h2
    by_cases hc : c = t' ∧ prev ≠ some '\\'
    · have he : subEsc t' prev (c :: rest) = '\\' :: c :: subEsc t' (some c) rest := by
        simp [subEsc, hc]
      rw [he]
      exact ⟨fun hbt => absurd hbt (Ne.symm ht), fun _ => rfl, hrec⟩
    · have he : subEsc t' prev (c :: rest) = c :: subEsc t' (some c) rest := by
        simp [subEsc, hc]
      rw [he]
      exact ⟨h1, hrec⟩

/-- C10 -- the escape transformation of `escape_parentheses` is idempotent
on every string: after one pass every parenthesis is preceded by a
backslash, so a second pass changes nothing. -/
theorem escapeStr_idem (s : Str) : escapeStr (escapeStr s) = escapeStr s := by
  unfold escapeStr
  have h1 : AllEsc '(' none (subEsc '(' none s) := allEsc_subEsc (by decide) none s
  have h2 : AllEsc '(' none (subEsc ')' none (subEsc '(' none s)) :=
    allEsc_subEsc_other (by decide) (by decide) none _ h1
  have h3 : AllEsc ')' none (subEsc ')' none (subEsc '(' none s)) :=
    allEsc_subEsc (by decide) none _
  rw [subEsc_of_allEsc none _ h2, subEsc_of_allEsc none _ h3]

theorem subEsc_noEsc_escAll {t : Char} :
    ∀ (prev : Option Char) (s : Str), NoEsc t prev s →
      subEsc t prev s = escAllWith [t] s
  | _, [], _ => rfl
  | prev, c :: rest, h => by
    obtain ⟨h1, h2⟩ := h
    have hrec := subEsc_noEsc_escAll (some c) rest h2
    by_cases hc : c = t
    · subst hc
      have hp : prev ≠ some '\\' := fun hpp => h1 ⟨hpp, rfl⟩
      simp [subEsc, escAllWith, hp, hrec]
    · simp [subEsc, escAllWith, hc, hrec]

theorem noEsc_escAll_other {t t' : Char} (ht : t ≠ '\\') (htt : t' ≠ t) :
    ∀ (prev : Option Char) (s : Str), NoEsc t prev s →
      NoEsc t prev (escAllWith [t'] s)
  | _, [], _ => trivial
  | prev, c :: rest, h => by
    obtain ⟨h1, h2⟩ := h
    have hrec := noEsc_escAll_other ht htt (some c) rest h2
    by_cases hc : c = t'
    · have he : escAllWith [t'] (c :: rest) = '\\' :: c :: escAllWith [t'] rest := by
        simp [escAllWith, hc]
      rw [he]
      exact ⟨fun hb => absurd hb.2.symm ht, fun hb => absurd (hc ▸ hb.2) htt, hrec⟩
    · have he : escAllWith [t'] (c :: rest) = c :: escAllWith [t'] rest := by
        simp [escAllWith, hc]
      rw [he]
      exact ⟨h1, hrec⟩

theorem escAll_escAll {t1 t2 : Char} (h12 : t1 ≠ t2) (h2 : t2 ≠ '\\') :
    ∀ s : Str, escAllWith [t2] (escAllWith [t1] s) = escAllWith [t1, t2] s
  | [] => rfl
  | c :: rest => by
    have hrec := escAll_escAll h12 h2 rest
    by_cases hc1 : c = t1
    · simp [escAllWith, hc1, h12, Ne.symm h2, Ne.symm h12, hrec]
    · by_cases hc2 : c = t2
      · simp [escAllWith, hc1, hc2, h12, Ne.symm h12, hrec]
      · simp [escAllWith, hc1, hc2, hrec]

theorem subUnesc_cons_of_ne {t c : Char} (hc : c ≠ '\\') :
    ∀ l : Str, subUnesc t (c :: l) = c :: subUnesc t l
  | [] => rfl
  | d :: l' => by simp [subUnesc, hc]

theorem subUnesc_escAll_pair {t1 t2 : Char} (h1 : t1 ≠ '\\') (h2 : t2 ≠ '\\')
    (h12 : t1 ≠ t2) :
    ∀ s : Str, subUnesc t1 (escAllWith [t1, t2] s) = escAllWith [t2] s
  | [] => rfl
  | c :: rest => by
    have hrec := subUnesc_escAll_pair h1 h2 h12 rest
    by_cases hc1 : c = t1
    · have he : escAllWith [t1, t2] (c :: rest) = '\\' :: c :: escAllWith [t1, t2] rest := by
        simp [escAllWith, hc1]
      rw [he]
      simp [subUnesc, hc1, hrec, escAllWith, h12, Ne.symm h12]
    · by_cases hc2 : c = t2
      · have he : escAllWith [t1, t2] (c :: rest) = '\\' :: c :: escAllWith [t1, t2] rest := by
          simp [escAllWith, hc2]
        rw [he]
        have hne : ¬('\\' = '\\' ∧ c = t1) := fun hb => hc1 hb.2
        simp only [subUnesc, if_neg hne]
        rw [subUnesc_cons_of_ne (hc2 ▸ h2) (escAllWith [t1, t2] rest), hrec]
        simp [escAllWith, hc2, h12, Ne.symm h12]
      · have he : escAllWith [t1, t2] (c :: rest) = c :: escAllWith [t1, t2] rest := by
          simp [escAllWith, hc1, hc2]
        rw [he]
        by_cases hcb : c = '\\'
        · subst hcb
          cases hr : escAllWith [t1, t2] rest with
          | nil =>
            have : rest = [] := by
              cases rest with
              | nil => rfl
              | cons d r' =>
                by_cases hd : d = t1 <;> by_cases hd2 : d = t2 <;>
                  simp [escAllWith, hd, hd2] at hr
            subst this
            simp [subUnesc, escAllWith, hc1, hc2]
          | cons h tail =>
            have hh : h ≠ t1 := by
              cases rest with
              | nil => simp [escAllWith] at hr
              | cons d r' =>
                by_cases hd : d = t1
                · simp [escAllWith, hd] at hr
                  exact hr.1 ▸ Ne.symm h1
                · by_cases hd2 : d = t2
                  · simp [escAllWith, hd, hd2] at hr
                    exact hr.1 ▸ Ne.symm h1
                  · simp [escAllWith, hd, hd2] at hr
                    exact hr.1 ▸ hd
            have hstep : subUnesc t1 ('\\' :: h :: tail) = '\\' :: subUnesc t1 (h :: tail) := by
              simp [subUnesc, hh]
            rw [hstep, ← hr, hrec]
            simp [escAllWith, hc1, hc2]
        · rw [subUnesc_cons_of_ne hcb, hrec]
          simp [escAllWith, hc2]

theorem subUnesc_escAll_single {t : Char} (ht : t ≠ '\\') :
    ∀ s : Str, subUnesc t (escAllWith [t] s) = s
  | [] => rfl
  | c :: rest => by
    have hrec := subUnesc_escAll_single ht rest
    by_cases hc : c = t
    · have he : escAllWith [t] (c :: rest) = '\\' :: c :: escAllWith [t] rest := by
        simp [escAllWith, hc]
      rw [he]
      simp [subUnesc, hc, hrec]
    · have he : escAllWith [t] (c :: rest) = c :: escAllWith [t] rest := by
        simp [escAllWith, hc]
      rw [he]
      by_cases hcb : c = '\\'
      · subst hcb
        cases hr : escAllWith [t] rest with
        | nil =>
          have : rest = [] := by
            cases rest with
            | nil => rfl
            | cons d r' => by_cases hd : d = t <;> simp [escAllWith, hd] at hr
          subst this
          simp [subUnesc]
        | cons h tail =>
          have hh : h ≠ t := by
            cases rest with
            | nil => simp [escAllWith] at hr
            | cons d r' =>
              by_cases hd : d = t
              · simp [escAllWith, hd] at hr
                exact hr.1 ▸ Ne.symm ht
              · simp [escAllWith, hd] at hr
                exact hr.1 ▸ hd
          have hstep : subUnesc t ('\\' :: h :: tail) = '\\' :: subUnesc t (h :: tail) := by
            simp [subUnesc, hh]
          rw [hstep, ← hr, hrec]
      · rw [subUnesc_cons_of_ne hcb, hrec]

/-- Round trip on a single text: if no parenthesis in `s` is already
escaped, unescaping after escaping returns `s`. -/
theorem escape_unescape_id {s : Str} (hp : NoEsc '(' none s)
    (hq : NoEsc ')' none s) : unescapeStr (escapeStr s) = s := by
  unfold escapeStr unescapeStr
  rw [subEsc_noEsc_escAll none s hp,
    subEsc_noEsc_escAll none _ (noEsc_escAll_other (by decide) (by decide) none s hq),
    escAll_escAll (by decide) (by decide) s,
    subUnesc_escAll_pair (by decide) (by decide) (by decide) s,
    subUnesc_escAll_single (by decide) s]

/-! ## Escape / unescape batch operations on the whole state

```python
class EscapeOperation(Operation):
    def run(self, state):
        state.caption_prefix = sub(r'(?<!\\)\(', r'\(', state.caption_prefix)
        state.caption_prefix = sub(r'(?<!\\)\)', r'\)', state.caption_prefix)
        for it in state.items:
            it.caption_str = ...same two subs...
            with open(it.caption, 'w') as f:
                f.write(state.caption_prefix + it.caption_str)
```
`UnescapeOperation.run` is identical with the inverse substitutions; the
shared per-item loop is `escLoop`. -/
def escLoop (f : Str → Str) (pre : Str) : List ItemF → Disk → List ItemF × Disk
  | [], d => ([], d)
  | it :: rest, d =>
    let c := f it.caption_str
    let d' := textWrite d it.caption (pre ++ c)
    let r := escLoop f pre rest d'
    ({ it with caption_str := c } :: r.1, r.2)

def escapeRun (st : AppStateF) (d : Disk) : AppStateF × Disk :=
  let pre := escapeStr st.caption_pre
  let r := escLoop escapeStr pre st.items d
  ({ st with caption_pre := pre, items := r.1 }, r.2)

def unescapeRun (st : AppStateF) (d : Disk) : AppStateF × Disk :=
  let pre := unescapeStr st.caption_pre
  let r := escLoop unescapeStr pre st.items d
  ({ st with caption_pre := pre, items := r.1 }, r.2)

theorem escLoop_items (f : Str → Str) (pre : Str) :
    ∀ (l : List ItemF) (d : Disk),
      (escLoop f pre l d).1 = l.map fun it => { it with caption_str := f it.caption_str }
  | [], _ => rfl
  | it :: rest, d => by
    simp [escLoop, escLoop_items f pre rest]

/-- The state a parentheses-escape/unescape pair passes through: items keep
their identity, only `caption_str` is mapped. -/
theorem escapeRun_items (st : AppStateF) (d : Disk) :
    (escapeRun st d).1.items =
      st.items.map fun it => { it with caption_str := escapeStr it.caption_str } := by
  simp [escapeRun, escLoop_items]

theorem unescapeRun_items (st : AppStateF) (d : Disk) :
    (unescapeRun st d).1.items =
      st.items.map fun it => { it with caption_str := unescapeStr it.caption_str } := by
  simp [unescapeRun, escLoop_items]

/-- An input on which escape-then-unescape is NOT the identity: a caption
that already contains the two characters backslash-parenthesis. -/
def itemC5 : ItemF :=
  { image := "i.png".data, caption := "i.txt".data, caption_str := "\\(".data }

def stC5 : AppStateF := { folder := none, caption_pre := [], items := [itemC5] }

def diskC5 : Disk := ⟨[("i.txt".data, "\\(".data)], [("i.png".data, ⟨1, 1⟩)]⟩

/-- C5 counterexample -- running `escape_parentheses` then
`unescape_parentheses` does not restore the state: the caption `\(` is left
alone by escape (its parenthesis is already preceded by a backslash) but
unescape rewrites it to `(`. -/
theorem escape_unescape_not_inverse :
    ((unescapeRun (escapeRun stC5 diskC5).1 (escapeRun stC5 diskC5).2).1.items.map
        ItemF.caption_str) ≠ stC5.items.map ItemF.caption_str := by decide

/-- C5 (amended) -- escape-then-unescape restores the shared prefix and
every item's own text provided none of those texts already contains a
backslash immediately before a parenthesis; on texts containing `\(` or
`\)` the round trip strips the backslash instead. -/
theorem escape_unescape_roundtrip (st : AppStateF) (d : Disk)
    (hp1 : NoEsc '(' none st.caption_pre) (hp2 : NoEsc ')' none st.caption_pre)
    (hi : ∀ it ∈ st.items,
      NoEsc '(' none it.caption_str ∧ NoEsc ')' none it.caption_str) :
    (unescapeRun (escapeRun st d).1 (escapeRun st d).2).1.caption_pre =
        st.caption_pre ∧
      (unescapeRun (escapeRun st d).1 (escapeRun st d).2).1.items.map
          ItemF.caption_str = st.items.map ItemF.caption_str := by
  constructor
  · have : (unescapeRun (escapeRun st d).1 (escapeRun st d).2).1.caption_pre =
        unescapeStr (escapeStr st.caption_pre) := by
      simp [escapeRun, unescapeRun]
    rw [this, escape_unescape_id hp1 hp2]
  · rw [unescapeRun_items, escapeRun_items]
    simp only [List.map_map]
    refine List.map_congr_left fun it hit => ?_
    simp only [Function.comp_apply]
    show unescapeStr (escapeStr it.caption_str) = it.caption_str
    exact escape_unescape_id (hi it hit).1 (hi it hit).2

/-- Witness for the amended C5 at a concrete state whose texts have no
pre-escaped parentheses. -/
def itemC5w : ItemF :=
  { image := "i.png".data, caption := "i.txt".data, caption_str := "(solo)".data }

def stC5w : AppStateF :=
  { folder := none, caption_pre := "girl, ".data, items := [itemC5w] }

theorem escape_unescape_roundtrip_witness :
    (unescapeRun (escapeRun stC5w diskC5).1 (escapeRun stC5w diskC5).2).1.items.map
        ItemF.caption_str = stC5w.items.map ItemF.caption_str :=
  (escape_unescape_roundtrip stC5w diskC5 (by decide) (by decide) (by decide)).2

/-! ## Comma tokenization

The batch operations tokenize captions with
`seq(s.split(',')).map(lambda x: x.strip()).to_list()` and serialize with
`', '.join(...)`. -/

/-- Python `s.split(',')`: split at every comma, keeping empty fields; the
result is always nonempty. -/
def splitComma : Str → List Str
  | [] => [[]]
  | c :: rest =>
    if c = ',' then [] :: splitComma rest
    else
      match splitComma rest with
      | [] => [[c]]
      | p :: ps => (c :: p) :: ps

/-- Python `str.strip()`: drop leading and trailing whitespace. -/
def strip (s : Str) : Str :=
  ((s.dropWhile Char.isWhitespace).reverse.dropWhile Char.isWhitespace).reverse

/-- Python `', '.join(parts)`. -/
def joinCS : List Str → Str
  | [] => []
  | [x] => x
  | x :: y :: rest => x ++ ',' :: ' ' :: joinCS (y :: rest)

theorem splitComma_ne_nil : ∀ s : Str, splitComma s ≠ []
  | [] => by simp [splitComma]
  | c :: rest => by
    by_cases hc : c = ','
    · simp [splitComma, hc]
    · cases h : splitComma rest with
      | nil => simp [splitComma, hc, h]
      | cons p ps => simp [splitComma, hc, h]

theorem splitComma_no_comma : ∀ (s : Str), ∀ part ∈ splitComma s, ',' ∉ part
  | [], part, hp => by
    simp [splitComma] at hp
    simp [hp]
  | c :: rest, part, hp => by
    by_cases hc : c = ','
    · simp [splitComma, hc] at hp
      rcases hp with rfl | hp
      · simp
      · exact splitComma_no_comma rest part hp
    · rcases h : splitComma rest with _ | ⟨p, ps⟩
      · exact absurd h (splitComma_ne_nil rest)
      · simp [splitComma, hc, h] at hp
        rcases hp with rfl | hp
        · have hpm : p ∈ splitComma rest := by simp [h]
          have hnp := splitComma_no_comma rest p hpm
          simp only [List.mem_cons, not_or]
          exact ⟨fun hh => hc hh.symm, hnp⟩
        · exact splitComma_no_comma rest part (by simp [h, hp])

theorem splitComma_of_no_comma : ∀ s : Str, ',' ∉ s → splitComma s = [s]
  | [], _ => rfl
  | c :: rest, h => by
    have hc : c ≠ ',' := fun hh => h (by simp [hh])
    have := splitComma_of_no_comma rest (fun hh => h (by simp [hh]))
    simp [splitComma, hc, this]

theorem splitComma_append_comma :
    ∀ (x t : Str), ',' ∉ x → splitComma (x ++ ',' :: t) = x :: splitComma t
  | [], t, _ => by simp [splitComma]
  | c :: x', t, h => by
    have hc : c ≠ ',' := fun hh => h (by simp [hh])
    have := splitComma_append_comma x' t (fun hh => h (by simp [hh]))
    simp [splitComma, hc, this]

theorem dropWhile_idem (p : Char → Bool) : ∀ l : Str,
    (l.dropWhile p).dropWhile p = l.dropWhile p
  | [] => rfl
  | c :: l' => by
    by_cases h : p c
    · simp [List.dropWhile_cons, h, dropWhile_idem p l']
    · simp [List.dropWhile_cons, h]

theorem dropWhile_suffix_self (p : Char → Bool) : ∀ l : Str, l.dropWhile p <:+ l
  | [] => List.suffix_rfl
  | c :: l' => by
    by_cases h : p c
    · rw [List.dropWhile_cons, if_pos h]
      exact (dropWhile_suffix_self p l').trans (List.suffix_cons c l')
    · rw [List.dropWhile_cons, if_neg h]

theorem dropWhile_self_head {p : Char → Bool} {c : Char} {m' : Str}
    (hm : (c :: m').dropWhile p = c :: m') : p c = false := by
  by_cases h : p c
  · rw [List.dropWhile_cons, if_pos h] at hm
    have hle : (m'.dropWhile p).length ≤ m'.length :=
      (dropWhile_suffix_self p m').length_le
    rw [hm] at hle
    simp at hle
  · simpa using h

theorem strip_stripped (s : Str) :
    (strip s).dropWhile Char.isWhitespace = strip s ∧
      (strip s).reverse.dropWhile Char.isWhitespace = (strip s).reverse := by
  constructor
  · unfold strip
    cases hm : s.dropWhile Char.isWhitespace with
    | nil => simp
    | cons c m' =>
      have hc : Char.isWhitespace c = false := by
        have := dropWhile_idem Char.isWhitespace s
        rw [hm] at this
        exact dropWhile_self_head this
      cases hX : (c :: m').reverse.dropWhile Char.isWhitespace with
      | nil => simp [hX]
      | cons a r =>
        have hsuf : a :: r <:+ (c :: m').reverse := hX ▸ dropWhile_suffix_self _ _
        have hpre : (a :: r).reverse <+: c :: m' := by
          rw [← List.reverse_reverse (c :: m')]
          exact List.reverse_prefix.2 hsuf
        obtain ⟨t, ht⟩ := hpre
        have hhead : (a :: r).reverse.dropWhile Char.isWhitespace = (a :: r).reverse := by
          cases hrr : (a :: r).reverse with
          | nil => simp at hrr
          | cons b w =>
            have hb : b = c := by
              rw [hrr, List.cons_append] at ht
              exact (List.cons.inj ht).1
            rw [List.dropWhile_cons, hb, hc]
            simp
        exact hhead
  · unfold strip
    rw [List.reverse_reverse]
    exact dropWhile_idem _ _

theorem strip_eq_self_of {s : Str}
    (h1 : s.dropWhile Char.isWhitespace = s)
    (h2 : s.reverse.dropWhile Char.isWhitespace = s.reverse) : strip s = s := by
  unfold strip
  rw [h1, h2, List.reverse_reverse]

theorem strip_idem (s : Str) : strip (strip s) = strip s :=
  strip_eq_self_of (strip_stripped s).1 (strip_stripped s).2

theorem strip_space (s : Str) : strip (' ' :: s) = strip s := by
  unfold strip
  rw [List.dropWhile_cons]
  simp

theorem mem_strip {x : Char} {s : Str} (h : x ∈ strip s) : x ∈ s := by
  unfold strip at h
  rw [List.mem_reverse] at h
  have h2 := (dropWhile_suffix_self Char.isWhitespace _).sublist.subset h
  rw [List.mem_reverse] at h2
  exact (dropWhile_suffix_self Char.isWhitespace s).sublist.subset h2

/-- Recovering the parts from a `', '.join`: splitting the joined string on
commas and stripping each field returns exactly the original parts, when
each part is comma-free and already stripped. -/
theorem splitComma_joinCS :
    ∀ parts : List Str, parts ≠ [] →
      (∀ x ∈ parts, ',' ∉ x ∧ strip x = x) →
      (splitComma (joinCS parts)).map strip = parts
  | [], h, _ => absurd rfl h
  | [x], _, h => by
    have hx := h x (by simp)
    simp [joinCS, splitComma_of_no_comma x hx.1, hx.2]
  | x :: y :: rest, _, h => by
    have hx := h x (by simp)
    have hrec := splitComma_joinCS (y :: rest) (by simp)
      (fun z hz => h z (by simp [List.mem_cons] at hz ⊢; tauto))
    have hsplit : splitComma (x ++ ',' :: ' ' :: joinCS (y :: rest)) =
        x :: splitComma (' ' :: joinCS (y :: rest)) :=
      splitComma_append_comma x _ hx.1
    cases hs : splitComma (joinCS (y :: rest)) with
    | nil => exact absurd hs (splitComma_ne_nil _)
    | cons p ps =>
      have hsp : splitComma (' ' :: joinCS (y :: rest)) = (' ' :: p) :: ps := by
        simp [splitComma, hs]
      rw [joinCS, hsplit, hsp]
      rw [hs] at hrec
      simp only [List.map_cons] at hrec ⊢
      rw [hx.2, strip_space]
      exact congrArg (x :: ·) hrec

/-! ## Deduplicate tags (`DeduplicateTagsOperation.run`)

```python
prefix_tags = seq(state.caption_prefix.split(',')).map(str.strip).to_set()
for it in state.items:
    tags = seq(it.caption_str.split(',')).map(str.strip).to_list()
    result = []
    for tag in tags:
        if tag not in result and tag not in prefix_tags:
            result.append(tag)
    s = ', '.join(result)
    if s != it.caption_str:
        with open(it.caption, 'w') as f:
            f.write(state.caption_prefix + s)
        it.caption_str = s
```
(`prefix_tags` is a set; only membership is used, so a list model
coincides.) -/

def dedupStep (ptags : List Str) (result : List Str) (tag : Str) : List Str :=
  if tag ∉ result ∧ tag ∉ ptags then result ++ [tag] else result

def dedupFold (ptags : List Str) (tags : List Str) : List Str :=
  tags.foldl (dedupStep ptags) []

/-- The text transformation a single item's caption undergoes. -/
def dedupStr (ptags : List Str) (c : Str) : Str :=
  joinCS (dedupFold ptags ((splitComma c).map strip))

def dedupItems (ptags : List Str) (pre : Str) : List ItemF → Disk → List ItemF × Disk
  | [], d => ([], d)
  | it :: rest, d =>
    let s := dedupStr ptags it.caption_str
    let it' := if s ≠ it.caption_str then { it with caption_str := s } else it
    let d' := if s ≠ it.caption_str then textWrite d it.caption (pre ++ s) else d
    let r := dedupItems ptags pre rest d'
    (it' :: r.1, r.2)

def dedupRun (st : AppStateF) (d : Disk) : AppStateF × Disk :=
  let ptags := (splitComma st.caption_pre).map strip
  let r := dedupItems ptags st.caption_pre st.items d
  ({ st with items := r.1 }, r.2)

theorem dedupFold_inv (ptags : List Str) :
    ∀ (tags acc : List Str), acc.Nodup → (∀ x ∈ acc, x ∉ ptags) →
      (tags.foldl (dedupStep ptags) acc).Nodup ∧
        (∀ x ∈ tags.foldl (dedupStep ptags) acc, x ∉ ptags) ∧
        (∀ x ∈ tags.foldl (dedupStep ptags) acc, x ∈ acc ∨ x ∈ tags)
  | [], acc, hn, hp => ⟨hn, hp, fun x hx => Or.inl hx⟩
  | t :: rest, acc, hn, hp => by
    by_cases hc : t ∉ acc ∧ t ∉ ptags
    · have hstep : dedupStep ptags acc t = acc ++ [t] := by simp [dedupStep, hc]
      have hn' : (acc ++ [t]).Nodup := by
        simp [List.nodup_append, hn, hc.1]
      have hp' : ∀ x ∈ acc ++ [t], x ∉ ptags := by
        intro x hx
        rcases List.mem_append.1 hx with hx | hx
        · exact hp x hx
        · simp at hx
          exact hx ▸ hc.2
      obtain ⟨h1, h2, h3⟩ := dedupFold_inv ptags rest (acc ++ [t]) hn' hp'
      refine ⟨by simpa [hstep] using h1, by simpa [hstep] using h2, ?_⟩
      intro x hx
      simp only [List.foldl_cons, hstep] at hx
      rcases h3 x hx with hx' | hx'
      · rcases List.mem_append.1 hx' with hx'' | hx''
        · exact Or.inl hx''
        · simp at hx''
          exact Or.inr (by simp [hx''])
      · exact Or.inr (by simp [hx'])
    · have hstep : dedupStep ptags acc t = acc := by simp [dedupStep, hc]
      obtain ⟨h1, h2, h3⟩ := dedupFold_inv ptags rest acc hn hp
      refine ⟨by simpa [hstep] using h1, by simpa [hstep] using h2, ?_⟩
      intro x hx
      simp only [List.foldl_cons, hstep] at hx
      rcases h3 x hx with hx' | hx'
      · exact Or.inl hx'
      · exact Or.inr (by simp [hx'])

theorem dedupFold_fix (ptags : List Str) :
    ∀ (l acc : List Str), l.Nodup → (∀ x ∈ l, x ∉ ptags ∧ x ∉ acc) →
      l.foldl (dedupStep ptags) acc = acc ++ l
  | [], acc, _, _ => by simp
  | t :: rest, acc, hn, h => by
    have ht := h t (by simp)
    have hstep : dedupStep ptags acc t = acc ++ [t] := by
      simp [dedupStep, ht.1, ht.2]
    have hrec := dedupFold_fix ptags rest (acc ++ [t]) (List.Nodup.of_cons hn) ?_
    · simp only [List.foldl_cons, hstep, hrec, List.append_assoc, List.singleton_append]
    · intro x hx
      refine ⟨(h x (by simp [hx])).1, ?_⟩
      intro hmem
      rcases List.mem_append.1 hmem with hm | hm
      · exact (h x (by simp [hx])).2 hm
      · simp at hm
        subst hm
        exact (List.nodup_cons.1 hn).1 hx

/-- A deduplicated caption is a fixpoint of the caption transformation. -/
theorem dedupStr_idem (ptags : List Str) (c : Str) :
    dedupStr ptags (dedupStr ptags c) = dedupStr ptags c := by
  set tags := (splitComma c).map strip with htags
  obtain ⟨hnd, hnp, hsub⟩ := dedupFold_inv ptags tags [] (by simp) (by simp)
  cases hr : dedupFold ptags tags with
  | nil =>
    have hs : dedupStr ptags c = [] := by
      rw [dedupStr, ← htags, hr, joinCS]
    rw [hs]
    show joinCS (dedupFold ptags ((splitComma []).map strip)) = []
    have : (splitComma ([] : Str)).map strip = [[]] := by
      simp [splitComma, strip]
    rw [this]
    by_cases hb : ([] : Str) ∈ ptags
    · simp [dedupFold, dedupStep, hb, joinCS]
    · simp [dedupFold, dedupStep, hb, joinCS]
  | cons q qs =>
    have hrne : dedupFold ptags tags ≠ [] := by simp [hr]
    have hprops : ∀ x ∈ dedupFold ptags tags, ',' ∉ x ∧ strip x = x := by
      intro x hx
      rcases hsub x hx with hx' | hx'
      · simp at hx'
      · rw [htags] at hx'
        obtain ⟨y, hy, rfl⟩ := List.mem_map.1 hx'
        refine ⟨fun hcm => splitComma_no_comma c y hy (mem_strip hcm), strip_idem y⟩
    have hrecover : (splitComma (joinCS (dedupFold ptags tags))).map strip =
        dedupFold ptags tags :=
      splitComma_joinCS _ hrne hprops
    have hfix : dedupFold ptags (dedupFold ptags tags) = dedupFold ptags tags := by
      rw [dedupFold]
      rw [dedupFold_fix ptags (dedupFold ptags tags) [] hnd
        (fun x hx => ⟨hnp x hx, by simp⟩)]
      simp
    have hs1 : dedupStr ptags c = joinCS (dedupFold ptags tags) := by
      rw [dedupStr, ← htags]
    rw [hs1, dedupStr, hrecover, hfix]

theorem dedupItems_out (ptags : List Str) (pre : Str) :
    ∀ (l : List ItemF) (d : Disk), ∀ it' ∈ (dedupItems ptags pre l d).1,
      dedupStr ptags it'.caption_str = it'.caption_str
  | [], _, it', h => by simp [dedupItems] at h
  | it :: rest, d, it', h => by
    simp only [dedupItems, List.mem_cons] at h
    rcases h with rfl | h
    · by_cases hc : dedupStr ptags it.caption_str ≠ it.caption_str
      · simp only [if_pos hc]
        exact dedupStr_idem ptags it.caption_str
      · simp only [if_neg hc]
        exact not_not.1 (by simpa using hc)
    · exact dedupItems_out ptags pre rest _ it' h

theorem dedupItems_fixed (ptags : List Str) (pre : Str) :
    ∀ (l : List ItemF) (d : Disk),
      (∀ it ∈ l, dedupStr ptags it.caption_str = it.caption_str) →
      dedupItems ptags pre l d = (l, d)
  | [], d, _ => rfl
  | it :: rest, d, h => by
    have hit := h it (by simp)
    have hrec := dedupItems_fixed ptags pre rest d (fun x hx => h x (by simp [hx]))
    simp [dedupItems, hit, hrec]

/-- C8 -- the `deduplicate_tags` batch operation is idempotent: running it
twice produces the same state (shared prefix, items, sidecar files) as
running it once. -/
theorem dedupRun_idempotent (st : AppStateF) (d : Disk) :
    dedupRun (dedupRun st d).1 (dedupRun st d).2 = dedupRun st d := by
  unfold dedupRun
  set ptags := (splitComma st.caption_pre).map strip with hpt
  have hout := dedupItems_out ptags st.caption_pre st.items d
  have hfix := dedupItems_fixed ptags st.caption_pre
    (dedupItems ptags st.caption_pre st.items d).1
    (dedupItems ptags st.caption_pre st.items d).2 hout
  simp [hfix]

/-! ## Align resolution (`AlignResolutionOperation.run`)

```python
def run(self, state):
    bg = Image.new('RGB', (self.width, self.height), self.color)
    for it in state.items:
        result = bg.copy()
        img = Image.open(it.image)
        width, height = img.size
        ratio = min(self.width / width, self.height / height)
        img = img.resize((int(width * ratio), int(height * ratio)), LANCZOS)
        width, height = img.size
        tags = seq((state.caption_prefix + it.caption_str).split(',')).map(str.strip).to_list()
        modified = False
        if abs(width - self.width) > abs(height - self.height) and self.box_tag:
            if 'pillarboxed' not in tags:
                it.caption_str = ', '.join(tags) + ', pillarboxed'
                modified = True
        if abs(height - self.height) > abs(width - self.width) and self.box_tag:
            if 'letterboxed' not in tags:
                it.caption_str = ', '.join(tags) + ', letterboxed'
                modified = True
        if modified:
            with open(it.caption, 'w') as f:
                f.write(it.caption_str)
        ...position chain...
        result.paste(img, (left, top))
        result.save(it.image)
```
`boxTag` stands for the source's `box_tag`. Python floats are modelled in
`ℚ` (exact at the dyadic inputs used below); `int()` on the nonnegative
sizes is the floor; `//` is `Int.fdiv`. -/

structure AlignArgs where
  width : Int
  height : Int
  color : Str
  boxTag : Bool
  position : Str

def startsWith (s pat : Str) : Bool := pat.isPrefixOf s

def endsWith (s pat : Str) : Bool := pat.reverse.isPrefixOf s.reverse

/-- `ratio = min(self.width / width, self.height / height)` (Python float
division, modelled exactly in `ℚ`; exact at the dyadic sizes used below). -/
def alignRatio (tw th w h : Int) : ℚ := min ((tw : ℚ) / (w : ℚ)) ((th : ℚ) / (h : ℚ))

/-- `img.resize((int(width * ratio), int(height * ratio)), LANCZOS)` -- the
resulting size; `int()` truncates, which on these nonnegative values is the
floor. -/
def alignResize (tw th w h : Int) : Int × Int :=
  (⌊(w : ℚ) * alignRatio tw th w h⌋, ⌊(h : ℚ) * alignRatio tw th w h⌋)

/-- The `(left, top)` paste offset chosen by the position chain: the
`startswith`/`endswith` chains leave both at 0 for the literal position
`"center"`, which only the final equality check handles. -/
def alignPlacement (tw th : Int) (pos : Str) (w h : Int) : Int × Int :=
  let top :=
    if startsWith pos ("top-".data) then 0
    else if startsWith pos ("center-".data) then Int.fdiv (th - h) 2
    else if startsWith pos ("bottom-".data) then th - h
    else 0
  let left :=
    if endsWith pos ("-left".data) then 0
    else if endsWith pos ("-center".data) then Int.fdiv (tw - w) 2
    else if endsWith pos ("-right".data) then tw - w
    else 0
  if pos = "center".data then (Int.fdiv (tw - w) 2, Int.fdiv (th - h) 2)
  else (left, top)

/-- One iteration of the per-item loop. Note line 147-148 of the source:
the sidecar receives `it.caption_str` alone, after `caption_str` has been
reassigned from the prefix-joined tag list. -/
def alignItem (a : AlignArgs) (pre : Str) (it : ItemF) (d : Disk) :
    Except Str (ItemF × Disk) :=
  match imgOpen d it.image with
  | none => .error ("FileNotFoundError".data)
  | some img =>
    let rs := alignResize a.width a.height img.width img.height
    let w := rs.1
    let h := rs.2
    let tags := (splitComma (pre ++ it.caption_str)).map strip
    let pill := (w - a.width).natAbs > (h - a.height).natAbs ∧ a.boxTag ∧
      ("pillarboxed".data ∉ tags)
    let c1 := if pill then joinCS tags ++ ", pillarboxed".data else it.caption_str
    let lett := (h - a.height).natAbs > (w - a.width).natAbs ∧ a.boxTag ∧
      ("letterboxed".data ∉ tags)
    let c2 := if lett then joinCS tags ++ ", letterboxed".data else c1
    let modified := pill ∨ lett
    let d1 := if modified then textWrite d it.caption c2 else d
    let _off := alignPlacement a.width a.height a.position w h
    let d2 := imgSave d1 it.image { width := a.width, height := a.height }
    .ok ({ it with caption_str := c2 }, d2)

def alignLoop (a : AlignArgs) (pre : Str) :
    List ItemF → Disk → Except Str (List ItemF × Disk)
  | [], d => .ok ([], d)
  | it :: rest, d =>
    match alignItem a pre it d with
    | .error e => .error e
    | .ok (it', d') =>
      match alignLoop a pre rest d' with
      | .error e => .error e
      | .ok (rest', d'') => .ok (it' :: rest', d'')

def alignRun (a : AlignArgs) (st : AppStateF) (d : Disk) :
    Except Str (AppStateF × Disk) :=
  match alignLoop a st.caption_pre st.items d with
  | .error e => .error e
  | .ok (items', d') => .ok ({ st with items := items' }, d')

def alignArgs512 : AlignArgs :=
  { width := 512, height := 512, color := "#000000".data, boxTag := true,
    position := "center".data }

def itemC1 : ItemF :=
  { image := "i.png".data, caption := "i.txt".data, caption_str := "solo".data }

/-- A state satisfying the sidecar invariant: the file holds exactly
`caption_prefix + caption_str` (`"1girl, " + "solo"`). -/
def stC1 : AppStateF :=
  { folder := none, caption_pre := "1girl, ".data, items := [itemC1] }

def diskC1 : Disk :=
  ⟨[("i.txt".data, "1girl, solo".data)], [("i.png".data, { width := 1024, height := 512 })]⟩

/-- C1 -- align_resolution breaks the sidecar invariant: starting from a
state whose sidecar equals prefix + own text, the run rewrites the sidecar
to the new `caption_str` alone (which now itself embeds the prefix), so
file content no longer equals prefix + own text. -/
theorem align_dirty_sidecar :
    alignRun alignArgs512 stC1 diskC1 =
      .ok ({ stC1 with
              items := [{ itemC1 with caption_str := "1girl, solo, letterboxed".data }] },
           ⟨[("i.txt".data, "1girl, solo, letterboxed".data)],
            [("i.png".data, { width := 512, height := 512 })]⟩) ∧
    ("1girl, solo, letterboxed".data : Str) ≠
      stC1.caption_pre ++ "1girl, solo, letterboxed".data := by
  have hrs : alignResize 512 512 1024 512 = (512, 256) := by
    norm_num [alignResize, alignRatio]
  have hitem : alignItem alignArgs512 ("1girl, ".data) itemC1 diskC1 =
      .ok ({ itemC1 with caption_str := "1girl, solo, letterboxed".data },
        ⟨[("i.txt".data, "1girl, solo, letterboxed".data)],
         [("i.png".data, { width := 512, height := 512 })]⟩) := by
    unfold alignItem
    rw [show imgOpen diskC1 itemC1.image =
      some { width := 1024, height := 512 } from by decide]
    simp only [alignArgs512, itemC1]
    rw [hrs]
    decide
  constructor
  · unfold alignRun
    rw [show stC1.items = [itemC1] from rfl,
      show stC1.caption_pre = "1girl, ".data from rfl]
    unfold alignLoop
    rw [hitem]
    rfl
  · decide

def itemC9 : ItemF :=
  { image := "i.png".data, caption := "i.txt".data, caption_str := "solo".data }

def stC9 : AppStateF := { folder := none, caption_pre := [], items := [itemC9] }

def diskC9 : Disk :=
  ⟨[("i.txt".data, "solo".data)], [("i.png".data, { width := 1024, height := 512 })]⟩

/-- C9 -- `align_resolution(512, 512, box_tag=true, position="center")` on
a 1024x512 image: ratio 1/2, scaled size 512x256, paste offset left 0 /
top 128, and `letterboxed` appended to the tags (height deficit 256
exceeds width deficit 0). -/
theorem align_1024x512_center_example :
    alignRatio 512 512 1024 512 = 1 / 2 ∧
    alignResize 512 512 1024 512 = (512, 256) ∧
    alignPlacement 512 512 ("center".data) 512 256 = (0, 128) ∧
    alignRun alignArgs512 stC9 diskC9 =
      .ok ({ stC9 with
              items := [{ itemC9 with caption_str := "solo, letterboxed".data }] },
           ⟨[("i.txt".data, "solo, letterboxed".data)],
            [("i.png".data, { width := 512, height := 512 })]⟩) := by
  have hrs : alignResize 512 512 1024 512 = (512, 256) := by
    norm_num [alignResize, alignRatio]
  refine ⟨by norm_num [alignRatio], hrs, by decide, ?_⟩
  have hitem : alignItem alignArgs512 ([] : Str) itemC9 diskC9 =
      .ok ({ itemC9 with caption_str := "solo, letterboxed".data },
        ⟨[("i.txt".data, "solo, letterboxed".data)],
         [("i.png".data, { width := 512, height := 512 })]⟩) := by
    unfold alignItem
    rw [show imgOpen diskC9 itemC9.image =
      some { width := 1024, height := 512 } from by decide]
    simp only [alignArgs512, itemC9]
    rw [hrs]
    decide
  unfold alignRun
  rw [show stC9.items = [itemC9] from rfl,
    show stC9.caption_pre = ([] : Str) from rfl]
  unfold alignLoop
  rw [hitem]
  rfl

/-! ## Tag-list revision data model (`types.py`)

```python
class DatasetItem(_BaseModel):
    image_path: Path
    caption_path: Path
    tags: list[str]

class AppState(_BaseModel):
    folder: Path | None = None
    tags_prefix: list[str] = []
    items: list[DatasetItem] = []
```
(`tags_pre` stands for the source's `tags_prefix`.) -/

structure DatasetItemT where
  image_path : Str
  caption_path : Str
  tags : List Str
deriving DecidableEq

structure AppStateT where
  folder : Option Str
  tags_pre : List Str
  items : List DatasetItemT
deriving DecidableEq

/-- `utils.where(seq, pred)`: the first element satisfying `pred` together
with its index; Python raises `RuntimeError('Value not found')` when there
is none, modelled as `none` mapped to an error by the caller. -/
def whereFirst {α : Type} (p : α → Prop) [DecidablePred p] : List α → Option (α × Nat)
  | [] => none
  | x :: r => if p x then some (x, 0) else (whereFirst p r).map fun y => (y.1, y.2 + 1)

/-- Python `list.insert(i, x)` (an out-of-range index clamps to the end,
exactly as `take`/`drop` do). -/
def pyInsert {α : Type} (l : List α) (i : Nat) (x : α) : List α :=
  l.take i ++ x :: l.drop i

/-- Index of the last occurrence of `c` in `p`, if any. -/
def lastIdx (c : Char) : Str → Option Nat
  | [] => none
  | x :: r =>
    match lastIdx c r with
    | some i => some (i + 1)
    | none => if x = c then some 0 else none

/-- `os.path.splitext`: split off the extension at the last dot, provided
it lies inside the basename and at least one character of the basename
before it is not itself a dot. -/
def splitext (p : Str) : Str × Str :=
  let sepIdx := match lastIdx '/' p with
    | some i => i + 1
    | none => 0
  match lastIdx '.' p with
  | none => (p, [])
  | some dot =>
    if dot < sepIdx then (p, [])
    else if ((p.drop sepIdx).take (dot - sepIdx)).all (· == '.') then (p, [])
    else (p.take dot, p.drop dot)

/-! ## Split tool (`tools.py` `SplitTool.run`, tag-list revision) -/

inductive SplitMode
  | cross
  | horizontal
  | vertical
deriving DecidableEq

structure Point where
  x : ℚ
  y : ℚ
deriving DecidableEq

/-- The crop list (lines 84-100): 4 crops for `cross`, 2 for `horizontal`
and `vertical`, each region excluding the 1-pixel divider line at the
split point. -/
def splitCrops (mode : SplitMode) (pt : Point) (w h : Int) : List Img :=
  match mode with
  | .cross =>
    [imgCrop 0 0 pt.x pt.y, imgCrop (pt.x + 1) 0 (w : ℚ) pt.y,
     imgCrop 0 (pt.y + 1) pt.x (h : ℚ), imgCrop (pt.x + 1) (pt.y + 1) (w : ℚ) (h : ℚ)]
  | .horizontal => [imgCrop 0 0 pt.x (h : ℚ), imgCrop (pt.x + 1) 0 (w : ℚ) (h : ℚ)]
  | .vertical => [imgCrop 0 0 (w : ℚ) pt.y, imgCrop 0 (pt.y + 1) (w : ℚ) (h : ℚ)]

/-- The path of piece `n` (1-based): `stem + '_n' + suffix`.
(`item.image_path.parent / (stem + ...)`: the `splitext` stem keeps the
parent directory, so the `parent /` join reduces to plain concatenation.) -/
def pieceName (stem suffix : Str) (n : Nat) : Str :=
  stem ++ '_' :: Nat.toDigits 10 n ++ suffix

/-- The per-piece loop (lines 103-113): save the crop under the piece
name, write its sidecar (`', '.join(state.tags_prefix + item.tags)`),
insert the new `DatasetItem` at `idx + 1 + i`. -/
def splitPieces (stem ext content : Str) (tags : List Str) (idx : Nat) :
    Nat → List Img → AppStateT → Disk → AppStateT × Disk
  | _, [], st, d => (st, d)
  | i, c :: rest, st, d =>
    let ip := pieceName stem ext (i + 1)
    let cp := pieceName stem (".txt".data) (i + 1)
    let d1 := imgSave d ip c
    let d2 := textWrite d1 cp content
    let newItems := pyInsert st.items (idx + 1 + i)
      { image_path := ip, caption_path := cp, tags := tags }
    let st1 := { st with items := newItems }
    splitPieces stem ext content tags idx (i + 1) rest st1 d2

def splitRun (mode : SplitMode) (pt : Point) (st : AppStateT) (d : Disk)
    (idx : Nat) : Except Str (AppStateT × Disk × Str) :=
  match st.items[idx]? with
  | none => .error ("IndexError".data)
  | some item =>
    match imgOpen d item.image_path with
    | none => .error ("FileNotFoundError".data)
    | some img =>
      let cropped := splitCrops mode pt img.width img.height
      let se := splitext item.image_path
      let content := joinCS (st.tags_pre ++ item.tags)
      let r := splitPieces se.1 se.2 content item.tags idx 0 cropped st d
      let d1 := imgUnlink r.2 item.image_path
      let d2 := textUnlink d1 item.caption_path
      let st2 := { r.1 with items := r.1.items.eraseIdx idx }
      .ok (st2, d2, pieceName se.1 se.2 1)

/-! ## Concat tool (`tools.py` `ConcatTool.run`, tag-list revision) -/

inductive CMode
  | horizontal
  | vertical
deriving DecidableEq

structure ConcatArgs where
  mode : CMode
  image : Str
  offset : Int
  color : Str

/-- The tag-merging loop (lines 205-210): append each of the second item's
tags not already present in the first's. -/
def mergeTags (a b : List Str) : List Str :=
  b.foldl (fun acc t => if t ∈ acc then acc else acc ++ [t]) a

def concatRun (args : ConcatArgs) (st : AppStateT) (d : Disk) (idx : Nat) :
    Except Str (AppStateT × Disk) :=
  match st.items[idx]? with
  | none => .error ("IndexError".data)
  | some item =>
    match imgOpen d item.image_path with
    | none => .error ("FileNotFoundError".data)
    | some img =>
      match whereFirst (fun it : DatasetItemT => it.image_path = args.image) st.items with
      | none => .error ("Value not found".data)
      | some (other, other_idx) =>
        match imgOpen d other.image_path with
        | none => .error ("FileNotFoundError".data)
        | some other_img =>
          let out : Img :=
            match args.mode with
            | .horizontal => { width := other_img.width + img.width,
                               height := max other_img.height img.height }
            | .vertical => { width := max other_img.width img.width,
                             height := other_img.height + img.height }
          let d1 := imgSave d item.image_path out
          let d2 := textUnlink d1 other.caption_path
          let d3 := imgUnlink d2 other.image_path
          let merged := mergeTags item.tags other.tags
          let d4 := textWrite d3 item.caption_path (joinCS (st.tags_pre ++ merged))
          let st1 := { st with items :=
            (st.items.set idx { item with tags := merged }).eraseIdx other_idx }
          .ok (st1, d4)

/-! ## The `save` command (`__init__.py`, free-text revision)

```python
async def save(state, body):
    item = None; idx = 0
    for i, it in enumerate(state.items):
        if it.image == Path(body.current):
            item = it; idx = i; break
    if item is None:
        return                    # silent: no error raised
    result = None
    if body.caption_prefix != state.caption_prefix:
        state.caption_prefix = body.caption_prefix
        for it in state.items:
            ...write caption_prefix + caption_str...
    if body.caption != item.caption_str:
        item.caption_str = body.caption
        ...write caption_prefix + caption...
    if body.tool:
        ...per-tool branch (an injected state transformer below)...
    return result
```
The tool branch is abstracted as the `toolRun` parameter: C2 concerns only
the lookup, which returns before the branch can run. -/

def writeAllSidecars (st : AppStateF) (d : Disk) : Disk :=
  st.items.foldl (fun dd it => textWrite dd it.caption (st.caption_pre ++ it.caption_str)) d

def save (toolRun : AppStateF → Disk → Nat → Except Str (AppStateF × Disk × Option Str))
    (st : AppStateF) (d : Disk) (current caption capPre : Str) :
    Except Str (AppStateF × Disk × Option Str) :=
  match whereFirst (fun it : ItemF => it.image = current) st.items with
  | none => .ok (st, d, none)
  | some (_, idx) =>
    let stPre : AppStateF × Disk :=
      if capPre ≠ st.caption_pre then
        let st' := { st with caption_pre := capPre }
        (st', writeAllSidecars st' d)
      else (st, d)
    match stPre.1.items[idx]? with
    | none => .error ("IndexError".data)
    | some item =>
      let stCap : AppStateF × Disk :=
        if caption ≠ item.caption_str then
          ({ stPre.1 with items := stPre.1.items.set idx { item with caption_str := caption } },
           textWrite stPre.2 item.caption (stPre.1.caption_pre ++ caption))
        else (stPre.1, stPre.2)
      toolRun stCap.1 stCap.2 idx

theorem whereFirst_none {α : Type} (p : α → Prop) [DecidablePred p] :
    ∀ l : List α, (∀ x ∈ l, ¬p x) → whereFirst p l = none
  | [], _ => rfl
  | x :: r, h => by
    have hx : ¬p x := h x (by simp)
    simp [whereFirst, hx, whereFirst_none p r (fun y hy => h y (by simp [hy]))]

theorem whereFirst_eq_some {α : Type} (p : α → Prop) [DecidablePred p] :
    ∀ (l : List α) (j : Nat) (x : α), l[j]? = some x → p x →
      (∀ k, k < j → ∀ y, l[k]? = some y → ¬p y) →
      whereFirst p l = some (x, j)
  | [], j, x, hj, _, _ => by simp at hj
  | a :: r, 0, x, hj, hx, _ => by
    simp at hj
    subst hj
    simp [whereFirst, hx]
  | a :: r, j + 1, x, hj, hx, hfront => by
    have ha : ¬p a := hfront 0 (Nat.succ_pos j) a (by simp)
    have hrec := whereFirst_eq_some p r j x (by simpa using hj) hx
      (fun k hk y hky => hfront (k + 1) (Nat.succ_lt_succ hk) y (by simpa using hky))
    simp [whereFirst, ha, hrec]

def toolNop : AppStateF → Disk → Nat → Except Str (AppStateF × Disk × Option Str) :=
  fun st d _ => .ok (st, d, none)

def itemC2 : ItemF :=
  { image := "a.png".data, caption := "a.txt".data, caption_str := "x".data }

def stC2 : AppStateF := { folder := none, caption_pre := [], items := [itemC2] }

def diskC2 : Disk := ⟨[("a.txt".data, "x".data)], [("a.png".data, ⟨2, 2⟩)]⟩

/-- C2 counterexample -- when `current` matches no item, the `save`
command returns successfully (Python `return None`) with the state and
disk untouched: it silently skips rather than failing with NotFound. -/
theorem save_missing_item_silently_skips :
    save toolNop stC2 diskC2 ("b.png".data) ("y".data) ("p, ".data) =
      .ok (stC2, diskC2, none) := by decide

/-- C2 (amended) -- lookup-miss behaviour differs by call site: `save`
silently returns None and leaves state and files unchanged when `current`
matches no item, while concat's `where` lookup of the referenced image
fails fast with RuntimeError('Value not found') before any state or file
mutation. -/
theorem lookup_miss_fail_fast_vs_skip :
    (∀ toolRun (st : AppStateF) (d : Disk) (current caption capPre : Str),
        (∀ it ∈ st.items, it.image ≠ current) →
        save toolRun st d current caption capPre = .ok (st, d, none)) ∧
    (∀ (args : ConcatArgs) (st : AppStateT) (d : Disk) (idx : Nat)
        (item : DatasetItemT) (img : Img),
        st.items[idx]? = some item →
        imgOpen d item.image_path = some img →
        (∀ it ∈ st.items, it.image_path ≠ args.image) →
        concatRun args st d idx = .error ("Value not found".data)) := by
  constructor
  · intro toolRun st d current caption capPre h
    unfold save
    rw [whereFirst_none _ st.items (fun it hit => h it hit)]
  · intro args st d idx item img hit himg h
    unfold concatRun
    rw [hit]
    dsimp only
    rw [himg]
    dsimp only
    rw [whereFirst_none _ st.items (fun it hmem => h it hmem)]

def itemT2 : DatasetItemT :=
  { image_path := "a.png".data, caption_path := "a.txt".data, tags := ["x".data] }

def stT2 : AppStateT := { folder := none, tags_pre := [], items := [itemT2] }

def diskT2 : Disk := ⟨[("a.txt".data, "x".data)], [("a.png".data, ⟨2, 2⟩)]⟩

/-- Witness for the amended C2, at concrete states: a missing `current`
in `save` and a missing referenced image in concat. -/
theorem lookup_miss_fail_fast_vs_skip_witness :
    save toolNop stC2 diskC2 ("b.png".data) ("y".data) ([] : Str) =
        .ok (stC2, diskC2, none) ∧
      concatRun ⟨CMode.horizontal, "c.png".data, 0, "#000".data⟩ stT2 diskT2 0 =
        .error ("Value not found".data) :=
  ⟨lookup_miss_fail_fast_vs_skip.1 toolNop stC2 diskC2 _ _ _ (by decide),
   lookup_miss_fail_fast_vs_skip.2 _ stT2 diskT2 0 itemT2 ⟨2, 2⟩ (by decide)
     (by decide) (by decide)⟩

theorem pyInsert_cons {α : Type} (a : α) (l : List α) (i : Nat) (x : α) :
    pyInsert (a :: l) (i + 1) x = a :: pyInsert l i x := rfl

theorem insert2_erase {α : Type} :
    ∀ (l : List α) (idx : Nat) (x : α), l[idx]? = some x → ∀ (N1 N2 : α),
      (pyInsert (pyInsert l (idx + 1) N1) (idx + 1 + 1) N2).eraseIdx idx =
        l.take idx ++ N1 :: N2 :: l.drop (idx + 1)
  | [], _, x, hit, _, _ => by simp at hit
  | a :: l', 0, x, hit, N1, N2 => by
    simp [pyInsert, List.eraseIdx]
  | a :: l', idx + 1, x, hit, N1, N2 => by
    have hrec := insert2_erase l' idx x (by simpa using hit) N1 N2
    rw [pyInsert_cons a l' (idx + 1) N1, pyInsert_cons a _ (idx + 1 + 1) N2]
    simp only [List.eraseIdx, hrec, List.take_succ_cons, List.drop_succ_cons,
      List.cons_append]

/-- C3 (amended) -- after a 2-way split of the item at a valid index
`idx`, `items` has length n+1, the two new items sit at indices `idx` and
`idx+1` in crop order (the rest of the list is untouched), and the two new
image paths (`stem_1.ext` and `stem_2.ext`) differ from each other; a new
path CAN however collide with a different pre-existing item's path (see
the counterexample). -/
theorem split_two_way (mode : SplitMode) (pt : Point) (st : AppStateT) (d : Disk)
    (idx : Nat) (item : DatasetItemT) (img : Img)
    (hmode : mode = SplitMode.horizontal ∨ mode = SplitMode.vertical)
    (hit : st.items[idx]? = some item)
    (himg : imgOpen d item.image_path = some img) :
    ∃ st' d',
      splitRun mode pt st d idx =
        .ok (st', d', pieceName (splitext item.image_path).1 (splitext item.image_path).2 1) ∧
      st'.items =
        st.items.take idx ++
          ({ image_path := pieceName (splitext item.image_path).1 (splitext item.image_path).2 1,
             caption_path := pieceName (splitext item.image_path).1 (".txt".data) 1,
             tags := item.tags } : DatasetItemT) ::
          ({ image_path := pieceName (splitext item.image_path).1 (splitext item.image_path).2 2,
             caption_path := pieceName (splitext item.image_path).1 (".txt".data) 2,
             tags := item.tags } : DatasetItemT) ::
          st.items.drop (idx + 1) ∧
      st'.items.length = st.items.length + 1 ∧
      pieceName (splitext item.image_path).1 (splitext item.image_path).2 1 ≠
        pieceName (splitext item.image_path).1 (splitext item.image_path).2 2 := by
  have hlt : idx < st.items.length := (List.getElem?_eq_some.1 hit).1
  have hitems : ∀ st2 : AppStateT, st2.items =
      st.items.take idx ++
        ({ image_path := pieceName (splitext item.image_path).1 (splitext item.image_path).2 1,
           caption_path := pieceName (splitext item.image_path).1 (".txt".data) 1,
           tags := item.tags } : DatasetItemT) ::
        ({ image_path := pieceName (splitext item.image_path).1 (splitext item.image_path).2 2,
           caption_path := pieceName (splitext item.image_path).1 (".txt".data) 2,
           tags := item.tags } : DatasetItemT) ::
        st.items.drop (idx + 1) →
      st2.items.length = st.items.length + 1 := by
    intro st2 h
    rw [h]
    simp [List.length_take, List.length_drop]
    omega
  have hne : pieceName (splitext item.image_path).1 (splitext item.image_path).2 1 ≠
      pieceName (splitext item.image_path).1 (splitext item.image_path).2 2 := by
    have hd1 : Nat.toDigits 10 1 = ['1'] := rfl
    have hd2 : Nat.toDigits 10 2 = ['2'] := rfl
    simp [pieceName, hd1, hd2]
  rcases hmode with rfl | rfl
  · unfold splitRun
    rw [hit]
    dsimp only
    rw [himg]
    dsimp only
    simp only [splitCrops, splitPieces, Nat.add_zero, Nat.zero_add]
    refine ⟨_, _, rfl, ?_, ?_, hne⟩
    · exact insert2_erase st.items idx item hit _ _
    · exact hitems _ (insert2_erase st.items idx item hit _ _)
  · unfold splitRun
    rw [hit]
    dsimp only
    rw [himg]
    dsimp only
    simp only [splitCrops, splitPieces, Nat.add_zero, Nat.zero_add]
    refine ⟨_, _, rfl, ?_, ?_, hne⟩
    · exact insert2_erase st.items idx item hit _ _
    · exact hitems _ (insert2_erase st.items idx item hit _ _)

def itemA : DatasetItemT :=
  { image_path := "a.png".data, caption_path := "a.txt".data, tags := ["x".data] }

def itemA1 : DatasetItemT :=
  { image_path := "a_1.png".data, caption_path := "a_1.txt".data, tags := ["y".data] }

def stT3 : AppStateT := { folder := none, tags_pre := [], items := [itemA, itemA1] }

def diskT3 : Disk :=
  ⟨[("a.txt".data, "x".data), ("a_1.txt".data, "y".data)],
   [("a.png".data, ⟨4, 4⟩), ("a_1.png".data, ⟨4, 4⟩)]⟩

/-- C3 counterexample -- splitting `a.png` (index 0, horizontal mode) in a
state that also contains `a_1.png` creates a new piece whose path
`a_1.png` collides with that surviving pre-existing item's path. -/
theorem split_path_collision :
    ∃ st' d' r, splitRun SplitMode.horizontal ⟨1, 1⟩ stT3 diskT3 0 = .ok (st', d', r) ∧
      st'.items.map DatasetItemT.image_path =
        ["a_1.png".data, "a_2.png".data, "a_1.png".data] := by
  refine ⟨_, _, _, rfl, ?_⟩
  decide

/-- Witness for the amended C3 at a concrete state and index. -/
theorem split_two_way_witness :
    ∃ st' d', splitRun SplitMode.horizontal ⟨1, 1⟩ stT3 diskT3 0 =
        .ok (st', d',
          pieceName (splitext itemA.image_path).1 (splitext itemA.image_path).2 1) ∧
      st'.items.length = stT3.items.length + 1 := by
  obtain ⟨st', d', h1, h2, h3, h4⟩ :=
    split_two_way SplitMode.horizontal ⟨1, 1⟩ stT3 diskT3 0 itemA ⟨4, 4⟩
      (Or.inl rfl) (by decide) (by decide)
  exact ⟨st', d', h1, h3⟩

theorem fsRead_fsUnlink_self {α : Type} : ∀ (fs : List (Str × α)) (p : Str),
    fsRead (fsUnlink fs p) p = none
  | [], _ => rfl
  | (q, c) :: rest, p => by
    by_cases h : q = p
    · simp [fsUnlink, h, fsRead_fsUnlink_self rest p]
    · simp [fsUnlink, fsRead, h, fsRead_fsUnlink_self rest p]

theorem fsRead_fsWrite_other {α : Type} {q p : Str} (h : q ≠ p) :
    ∀ (fs : List (Str × α)) (c : α), fsRead (fsWrite fs q c) p = fsRead fs p
  | [], c => by simp [fsWrite, fsRead, h]
  | (r, x) :: rest, c => by
    by_cases hr : r = q
    · subst hr
      simp [fsWrite, fsRead, h]
    · simp [fsWrite, fsRead, hr, fsRead_fsWrite_other h rest c]

theorem nodup_getElem?_inj {α : Type} :
    ∀ (l : List α), l.Nodup → ∀ (i j : Nat) (x : α),
      l[i]? = some x → l[j]? = some x → i = j
  | [], _, i, _, x, hi, _ => by simp at hi
  | _ :: _, _, 0, 0, _, _, _ => rfl
  | a :: r, h, 0, j + 1, x, hi, hj => by
    simp at hi
    have hj' : r[j]? = some a := by
      rw [hi]
      simpa using hj
    exact absurd (List.getElem?_mem hj') (List.nodup_cons.1 h).1
  | a :: r, h, i + 1, 0, x, hi, hj => by
    simp at hj
    have hi' : r[i]? = some a := by
      rw [hj]
      simpa using hi
    exact absurd (List.getElem?_mem hi') (List.nodup_cons.1 h).1
  | a :: r, h, i + 1, j + 1, x, hi, hj => by
    have := nodup_getElem?_inj r (List.nodup_cons.1 h).2 i j x
      (by simpa using hi) (by simpa using hj)
    omega

/-- Characterization of the tag-merging loop: the result is A's tags
followed by exactly those of B's tags not already in A, without
duplicates. -/
theorem mergeTags_spec :
    ∀ (b a : List Str), ∃ s, mergeTags a b = a ++ s ∧ s.Nodup ∧
      ∀ t, t ∈ s ↔ (t ∈ b ∧ t ∉ a)
  | [], a => ⟨[], by simp [mergeTags], by simp, by simp⟩
  | t :: b', a => by
    by_cases ht : t ∈ a
    · have hstep : mergeTags a (t :: b') = mergeTags a b' := by
        simp [mergeTags, ht]
      obtain ⟨s, h1, h2, h3⟩ := mergeTags_spec b' a
      refine ⟨s, hstep ▸ h1, h2, fun x => ?_⟩
      rw [h3 x]
      constructor
      · rintro ⟨hx, hxa⟩
        exact ⟨by simp [hx], hxa⟩
      · rintro ⟨hx, hxa⟩
        rcases List.mem_cons.1 hx with rfl | hx
        · exact absurd ht hxa
        · exact ⟨hx, hxa⟩
    · have hstep : mergeTags a (t :: b') = mergeTags (a ++ [t]) b' := by
        simp [mergeTags, ht]
      obtain ⟨s, h1, h2, h3⟩ := mergeTags_spec b' (a ++ [t])
      refine ⟨t :: s, ?_, ?_, ?_⟩
      · rw [hstep, h1]
        simp
      · refine List.nodup_cons.2 ⟨fun hts => ((h3 t).1 hts).2 (by simp), h2⟩
      · intro x
        rw [List.mem_cons, h3 x]
        constructor
        · rintro (rfl | ⟨hx, hxa⟩)
          · exact ⟨by simp, ht⟩
          · refine ⟨by simp [hx], fun hxa' => hxa (by simp [hxa'])⟩
        · rintro ⟨hx, hxa⟩
          rcases List.mem_cons.1 hx with rfl | hx
          · exact Or.inl rfl
          · by_cases hxt : x = t
            · exact Or.inl hxt
            · exact Or.inr ⟨hx, by simp [hxa, hxt]⟩

/-- C4 -- concatenating the acting item A (at a valid index) with a
distinct referenced item B: `items` loses exactly the entry B, A's merged
tag list is A's tags followed by exactly those of B's tags not already in
A (A's order first, no duplicates appended), and B's sidecar and image
files no longer exist on disk. -/
theorem concat_merges_and_removes (args : ConcatArgs) (st : AppStateT) (d : Disk)
    (idx bidx : Nat) (A B : DatasetItemT) (imgA imgB : Img)
    (hA : st.items[idx]? = some A)
    (hB : st.items[bidx]? = some B)
    (hBpath : B.image_path = args.image)
    (hnodup : (st.items.map DatasetItemT.image_path).Nodup)
    (hABimg : A.image_path ≠ B.image_path)
    (hABcap : A.caption_path ≠ B.caption_path)
    (hiA : imgOpen d A.image_path = some imgA)
    (hiB : imgOpen d B.image_path = some imgB) :
    ∃ st' d',
      concatRun args st d idx = .ok (st', d') ∧
      st'.items =
        (st.items.set idx { A with tags := mergeTags A.tags B.tags }).eraseIdx bidx ∧
      st'.items.length + 1 = st.items.length ∧
      (∃ s, mergeTags A.tags B.tags = A.tags ++ s ∧ s.Nodup ∧
        ∀ t, t ∈ s ↔ (t ∈ B.tags ∧ t ∉ A.tags)) ∧
      fsRead d'.texts B.caption_path = none ∧
      fsRead d'.images B.image_path = none := by
  have hblt : bidx < st.items.length := (List.getElem?_eq_some.1 hB).1
  have hwhere : whereFirst (fun it : DatasetItemT => it.image_path = args.image)
      st.items = some (B, bidx) := by
    refine whereFirst_eq_some _ st.items bidx B hB hBpath ?_
    intro k hk y hky hyp
    have h1 : (st.items.map DatasetItemT.image_path)[k]? = some args.image := by
      rw [List.getElem?_map, hky]
      simp [hyp]
    have h2 : (st.items.map DatasetItemT.image_path)[bidx]? = some args.image := by
      rw [List.getElem?_map, hB]
      simp [hBpath]
    have := nodup_getElem?_inj _ hnodup k bidx _ h1 h2
    omega
  unfold concatRun
  rw [hA]
  dsimp only
  rw [hiA]
  dsimp only
  rw [hwhere]
  dsimp only
  rw [show imgOpen d B.image_path = some imgB from hiB]
  dsimp only
  refine ⟨_, _, rfl, rfl, ?_, mergeTags_spec B.tags A.tags, ?_, ?_⟩
  · rw [List.length_eraseIdx]
    simp only [List.length_set, if_pos hblt]
    omega
  · simp only [textWrite, textUnlink, imgSave, imgUnlink]
    rw [fsRead_fsWrite_other hABcap]
    exact fsRead_fsUnlink_self _ _
  · simp only [textWrite, textUnlink, imgSave, imgUnlink]
    exact fsRead_fsUnlink_self _ _

def itemT4A : DatasetItemT :=
  { image_path := "a.png".data, caption_path := "a.txt".data,
    tags := ["x".data, "y".data] }

def itemT4B : DatasetItemT :=
  { image_path := "b.png".data, caption_path := "b.txt".data,
    tags := ["y".data, "z".data] }

def stT4 : AppStateT :=
  { folder := none, tags_pre := ["g".data], items := [itemT4A, itemT4B] }

def diskT4 : Disk :=
  ⟨[("a.txt".data, "g, x, y".data), ("b.txt".data, "g, y, z".data)],
   [("a.png".data, ⟨2, 2⟩), ("b.png".data, ⟨3, 3⟩)]⟩

def argsT4 : ConcatArgs := ⟨CMode.horizontal, "b.png".data, 0, "#000".data⟩

/-- Witness for C4 at a concrete two-item state. -/
theorem concat_merges_and_removes_witness :
    ∃ st' d', concatRun argsT4 stT4 diskT4 0 = .ok (st', d') ∧
      st'.items.length + 1 = stT4.items.length ∧
      fsRead d'.texts itemT4B.caption_path = none := by
  obtain ⟨st', d', h1, h2, h3, h4, h5, h6⟩ :=
    concat_merges_and_removes argsT4 stT4 diskT4 0 1 itemT4A itemT4B ⟨2, 2⟩ ⟨3, 3⟩
      (by decide) (by decide) (by decide) (by decide) (by decide) (by decide)
      (by decide) (by decide)
  exact ⟨st', d', h1, h3, h5⟩

end ImageToolkit
